import Mathlib

/-!
# Verification of `molecule_pred/utils.py`

A shallow embedding of the two functions of the module:

* `generate_charset` builds a character vocabulary from a corpus of strings:
  `['NULL', 'PAD'] + sorted(set(''.join(full_char_list)))`.
* `smiles_to_onehots` one-hot encodes a batch of strings over a vocabulary,
  padding / truncating every string to a fixed length.

Python strings are sequences of code points, modelled as `List Char`
(`Char` carries the code point, and Mathlib's `LinearOrder Char` is
code-point order, matching Python's `sorted` on characters).  Vocabulary
entries are `List Char` because the two reserved tokens `'NULL'` and
`'PAD'` are multi-character strings while the remaining entries are
single-character strings.

The encoder contains one operation that can raise at run time: the indexed
write `one_hot_col[ind] = 1` raises `IndexError` when `ind` is out of
range.  Fallible steps are therefore modelled in `Option`, with `none`
standing for a raised exception that aborts the whole call.
-/

namespace MoleculePred

/-- The reserved token `'NULL'` (vocabulary index 0). -/
def NULLtok : List Char := ['N', 'U', 'L', 'L']

/-- The reserved token `'PAD'` (vocabulary index 1). -/
def PADtok : List Char := ['P', 'A', 'D']

/-- Ordered insertion of a character into a strictly sorted list, skipping
it when already present.  Folding this over a string computes Python's
`sorted(set(s))`: the strictly increasing enumeration of the set of
characters of `s`. -/
def insortChar (c : Char) : List Char → List Char
  | [] => [c]
  | d :: ds =>
    if c < d then c :: d :: ds
    else if c = d then d :: ds
    else d :: insortChar c ds

/-- Python's `sorted(set(s))` for a string `s`: the distinct characters of
`s` in strictly ascending code-point order. -/
def sortedChars (s : List Char) : List Char := s.foldr insortChar []

/-- Embedding of `generate_charset`:
`charset = ['NULL', 'PAD'] + sorted(set(''.join(full_char_list)))`.
`''.join(full_char_list)` is the concatenation `full_char_list.flatten`,
and `sorted(set(·))` is `sortedChars`.  Each character becomes the
singleton string `[c]`. -/
def generate_charset (full_char_list : List (List Char)) : List (List Char) :=
  NULLtok :: PADtok :: ((sortedChars full_char_list.flatten).map (fun c => [c]))

/-- Python's `charset.index(tok)`: index of the first occurrence of `tok`,
`ValueError` (modelled as `none`) when `tok` is absent. -/
def pyIndex (charset : List (List Char)) (tok : List Char) : Option Nat :=
  match charset with
  | [] => none
  | t :: ts => if t = tok then some 0 else (pyIndex ts tok).map (· + 1)

/-- The one-hot index `ind` chosen by the inner loop body of
`smiles_to_onehots` for string `s` at position `i`:
if `i < len(s)` then `try: ind = unique_charset.index(s[i]) except ValueError: ind = 0`,
else `ind = 1`. -/
def oneHotInd (charset : List (List Char)) (s : List Char) (i : Nat) : Nat :=
  match s.get? i with
  | some c =>
    match pyIndex charset [c] with
    | some k => k
    | none => 0
  | none => 1

/-- Python's indexed write `l[i] = v` on a list of length `len(l)`:
succeeds exactly when `i` is in range, raises `IndexError` (`none`)
otherwise.  (The source only ever uses non-negative `ind`.) -/
def listSet? (l : List Nat) (i : Nat) (v : Nat) : Option (List Nat) :=
  if i < l.length then some (l.set i v) else none

/-- One iteration of the inner loop of `smiles_to_onehots`: build
`one_hot_col = [0]*charset_length`, compute `ind`, perform
`one_hot_col[ind] = 1`. -/
def oneHotCol? (charset : List (List Char)) (s : List Char) (i : Nat) : Option (List Nat) :=
  listSet? (List.replicate charset.length 0) (oneHotInd charset s i) 1

/-- Run a loop body that may raise over a list of iterations: the first
raised exception aborts the whole loop (`none`); otherwise collect the
results in order. -/
def mapOrFail (f : α → Option β) : List α → Option (List β)
  | [] => some []
  | a :: as =>
    match f a, mapOrFail f as with
    | some b, some bs => some (b :: bs)
    | _, _ => none

/-- The matrix `one_hot_smiles` built for one string: rows
`i = 0, …, max_smiles_chars - 1`, each row produced by `oneHotCol?`.
(`np.zeros(shape=(max_smiles_chars, charset_length))` is fully overwritten
row by row by `one_hot_smiles[i,:] = one_hot_col`, so the matrix is exactly
the list of the computed columns.) -/
def one_hot_smiles? (charset : List (List Char)) (s : List Char) (maxLen : Nat) :
    Option (List (List Nat)) :=
  mapOrFail (fun i => oneHotCol? charset s i) (List.range maxLen)

/-- Embedding of the loop of `smiles_to_onehots`: encode every string of
the batch, `none` when any iteration raises.  (The final `np.array`
conversion of the collected list is modelled separately, in
`smiles_to_onehots_np`.) -/
def smiles_to_onehots (smiles_strings unique_charset : List (List Char))
    (max_smiles_chars : Nat) : Option (List (List (List Nat))) :=
  mapOrFail (fun s => one_hot_smiles? unique_charset s max_smiles_chars) smiles_strings

/-- A numpy ndarray value as returned by the source: its shape together
with its nested-list data. -/
structure NpArray3 where
  shape : List Nat
  data : List (List (List Nat))
deriving DecidableEq

/-- Embedding of the full `smiles_to_onehots` including the final
`np.array(one_hots)` conversion of its return statement.  Every element of
`one_hots` is the ndarray allocated by
`np.zeros(shape=(max_smiles_chars, charset_length))`, so it carries the
shape `(max_smiles_chars, charset_length)` even when one of those numbers
is zero; `np.array` over a non-empty list of `n` such equal-shape matrices
stacks them into a 3-D array of shape
`(n, max_smiles_chars, charset_length)`, while `np.array([])` over the
empty list is a 1-D array of shape `(0,)`. -/
def smiles_to_onehots_np (smiles_strings unique_charset : List (List Char))
    (max_smiles_chars : Nat) : Option NpArray3 :=
  (smiles_to_onehots smiles_strings unique_charset max_smiles_chars).map
    (fun one_hots =>
      match one_hots with
      | [] => ⟨[0], []⟩
      | m :: rest =>
        ⟨[(m :: rest).length, max_smiles_chars, unique_charset.length], m :: rest⟩)

/-- The numpy dtypes relevant to the returned tensor. -/
inductive NpDtype
  | float64 | int8 | int16 | int32 | int64 | uint8 | boolDt
deriving DecidableEq

/-- Whether a dtype is a small-integer element type (in the sense of the
data-model description: an integer type holding 0 and 1). -/
def NpDtype.isSmallInteger : NpDtype → Bool
  | .int8 | .int16 | .int32 | .int64 | .uint8 | .boolDt => true
  | .float64 => false

/-- The numpy dtype of the array returned by `smiles_to_onehots`.  The
source allocates each per-string matrix with
`np.zeros(shape=(max_smiles_chars, charset_length))`, without a `dtype`
argument, so numpy's default dtype `float64` is used; the final
`np.array(one_hots)` over a list of `float64` matrices is again `float64`.
The values written (0 and 1) are exactly representable, so the embedding
keeps the entries as naturals while this constant records the element
type. -/
def smiles_to_onehots_dtype : NpDtype := NpDtype.float64

/-- The one-hot vector of length `n` with its single 1 at index `k`:
`[0]*n` followed by the write `·[k] = 1`. -/
def oneHotVec (n k : Nat) : List Nat := (List.replicate n 0).set k 1

/-! ## Properties of `sortedChars` -/

theorem mem_insortChar {a c : Char} {l : List Char} :
    a ∈ insortChar c l ↔ a = c ∨ a ∈ l := by
  induction l with
  | nil => simp [insortChar]
  | cons d ds ih =>
    by_cases h1 : c < d
    · simp [insortChar, h1, List.mem_cons]
    · by_cases h2 : c = d
      · subst h2
        simp [insortChar, h1, List.mem_cons]
      · simp [insortChar, h1, h2, List.mem_cons, ih]
        tauto

theorem sorted_insortChar {c : Char} {l : List Char} (h : l.Sorted (· < ·)) :
    (insortChar c l).Sorted (· < ·) := by
  induction l with
  | nil => simp [insortChar]
  | cons d ds ih =>
    rw [List.sorted_cons] at h
    obtain ⟨hd, hds⟩ := h
    by_cases h1 : c < d
    · rw [insortChar, if_pos h1, List.sorted_cons]
      refine ⟨?_, List.sorted_cons.2 ⟨hd, hds⟩⟩
      intro b hb
      rcases List.mem_cons.1 hb with rfl | hb
      · exact h1
      · exact h1.trans (hd b hb)
    · by_cases h2 : c = d
      · rw [insortChar, if_neg h1, if_pos h2]
        exact List.sorted_cons.2 ⟨hd, hds⟩
      · rw [insortChar, if_neg h1, if_neg h2, List.sorted_cons]
        refine ⟨?_, ih hds⟩
        intro b hb
        rcases mem_insortChar.1 hb with rfl | hb
        · exact lt_of_le_of_ne (not_lt.1 h1) (Ne.symm h2)
        · exact hd b hb

theorem sortedChars_sorted (s : List Char) : (sortedChars s).Sorted (· < ·) := by
  induction s with
  | nil => simp [sortedChars]
  | cons c cs ih => exact sorted_insortChar ih

theorem mem_sortedChars {a : Char} {s : List Char} : a ∈ sortedChars s ↔ a ∈ s := by
  induction s with
  | nil => simp [sortedChars]
  | cons c cs ih =>
    show a ∈ insortChar c (sortedChars cs) ↔ _
    rw [mem_insortChar, ih, List.mem_cons]

theorem sortedChars_nodup (s : List Char) : (sortedChars s).Nodup :=
  (sortedChars_sorted s).nodup

/-- Two strings with the same set of characters have the same
`sorted(set(·))`. -/
theorem sortedChars_eq_of_mem_iff {s t : List Char} (h : ∀ a, a ∈ s ↔ a ∈ t) :
    sortedChars s = sortedChars t := by
  refine List.eq_of_perm_of_sorted ?_
    ((sortedChars_sorted s).imp le_of_lt) ((sortedChars_sorted t).imp le_of_lt)
  refine (List.perm_ext_iff_of_nodup (sortedChars_nodup s) (sortedChars_nodup t)).2 ?_
  intro a
  rw [mem_sortedChars, mem_sortedChars]
  exact h a

theorem length_sortedChars (s : List Char) :
    (sortedChars s).length = s.toFinset.card := by
  have h1 : (sortedChars s).toFinset = s.toFinset := by
    ext a
    simp [List.mem_toFinset, mem_sortedChars]
  calc (sortedChars s).length
      = (sortedChars s).toFinset.card :=
        (List.toFinset_card_of_nodup (sortedChars_nodup s)).symm
    _ = s.toFinset.card := by rw [h1]

/-- A singleton string never equals the reserved token `'NULL'`. -/
theorem single_ne_NULLtok (c : Char) : [c] ≠ NULLtok := by
  intro h
  simp [NULLtok] at h

/-- A singleton string never equals the reserved token `'PAD'`. -/
theorem single_ne_PADtok (c : Char) : [c] ≠ PADtok := by
  intro h
  simp [PADtok] at h

/-! ## Properties of `mapOrFail` -/

theorem mapOrFail_length {f : α → Option β} :
    ∀ {l : List α} {bs : List β}, mapOrFail f l = some bs → bs.length = l.length := by
  intro l
  induction l with
  | nil =>
    intro bs h
    simp only [mapOrFail, Option.some.injEq] at h
    subst h
    rfl
  | cons a as ih =>
    intro bs h
    rw [mapOrFail] at h
    cases hfa : f a <;> rw [hfa] at h
    · exact absurd h (by simp)
    · cases hrec : mapOrFail f as <;> rw [hrec] at h
      · exact absurd h (by simp)
      · simp only [Option.some.injEq] at h
        subst h
        simp [ih hrec]

theorem mapOrFail_get? {f : α → Option β} :
    ∀ {l : List α} {bs : List β}, mapOrFail f l = some bs →
      ∀ i : Nat, (l.get? i).bind f = bs.get? i := by
  intro l
  induction l with
  | nil =>
    intro bs h i
    simp only [mapOrFail, Option.some.injEq] at h
    subst h
    rfl
  | cons a as ih =>
    intro bs h i
    rw [mapOrFail] at h
    cases hfa : f a <;> rw [hfa] at h
    · exact absurd h (by simp)
    · cases hrec : mapOrFail f as <;> rw [hrec] at h
      · exact absurd h (by simp)
      · simp only [Option.some.injEq] at h
        subst h
        cases i with
        | zero => simp [hfa]
        | succ i => simpa using ih hrec i

theorem mapOrFail_mem {f : α → Option β} {l : List α} {bs : List β}
    (h : mapOrFail f l = some bs) {b : β} (hb : b ∈ bs) :
    ∃ a ∈ l, f a = some b := by
  obtain ⟨i, hi⟩ := List.mem_iff_get?.1 hb
  have := mapOrFail_get? h i
  rw [hi] at this
  cases ha : l.get? i with
  | none => rw [ha] at this; exact absurd this (by simp)
  | some a =>
    rw [ha] at this
    exact ⟨a, List.mem_iff_get?.2 ⟨i, ha⟩, this⟩

theorem mapOrFail_isSome {f : α → Option β} {l : List α}
    (h : ∀ a ∈ l, (f a).isSome) : (mapOrFail f l).isSome := by
  induction l with
  | nil => simp [mapOrFail]
  | cons a as ih =>
    rw [mapOrFail]
    cases hfa : f a
    · have := h a (List.mem_cons_self a as)
      rw [hfa] at this
      exact absurd this (by simp)
    · have hrec := ih (fun b hb => h b (List.mem_cons_of_mem a hb))
      cases hrec' : mapOrFail f as
      · rw [hrec'] at hrec
        exact absurd hrec (by simp)
      · simp

theorem mapOrFail_congr {f g : α → Option β} {l : List α}
    (h : ∀ a ∈ l, f a = g a) : mapOrFail f l = mapOrFail g l := by
  induction l with
  | nil => rfl
  | cons a as ih =>
    rw [mapOrFail, mapOrFail, h a (List.mem_cons_self a as),
      ih (fun b hb => h b (List.mem_cons_of_mem a hb))]

/-! ## Properties of the encoder -/

theorem pyIndex_eq_none {charset : List (List Char)} {tok : List Char} :
    pyIndex charset tok = none ↔ tok ∉ charset := by
  induction charset with
  | nil => simp [pyIndex]
  | cons t ts ih =>
    by_cases h : t = tok
    · subst h
      simp [pyIndex]
    · rw [pyIndex, if_neg h, List.mem_cons]
      simp only [Option.map_eq_none', ih]
      constructor
      · intro hn hmem
        rcases hmem with rfl | hmem
        · exact h rfl
        · exact hn hmem
      · intro hn hmem
        exact hn (Or.inr hmem)

/-- `pyIndex` returns the index of the FIRST occurrence of the token. -/
theorem pyIndex_some_spec {charset : List (List Char)} {tok : List Char} {k : Nat}
    (h : pyIndex charset tok = some k) :
    charset.get? k = some tok ∧ ∀ j, j < k → charset.get? j ≠ some tok := by
  induction charset generalizing k with
  | nil => simp [pyIndex] at h
  | cons t ts ih =>
    by_cases ht : t = tok
    · subst ht
      rw [pyIndex, if_pos rfl] at h
      simp only [Option.some.injEq] at h
      subst h
      exact ⟨rfl, fun j hj => absurd hj (by omega)⟩
    · rw [pyIndex, if_neg ht] at h
      cases hp : pyIndex ts tok with
      | none =>
        rw [hp] at h
        exact absurd h (by simp)
      | some k' =>
        rw [hp] at h
        simp only [Option.map_some', Option.some.injEq] at h
        subst h
        obtain ⟨h1, h2⟩ := ih hp
        refine ⟨h1, ?_⟩
        intro j hj
        cases j with
        | zero =>
          simp only [List.get?, ne_eq, Option.some.injEq]
          exact ht
        | succ j =>
          simpa using h2 j (by omega)

/-- A found index is in range. -/
theorem pyIndex_lt {charset : List (List Char)} {tok : List Char} {k : Nat}
    (h : pyIndex charset tok = some k) : k < charset.length := by
  by_contra hk
  have := (pyIndex_some_spec h).1
  rw [List.get?_eq_none.2 (by omega)] at this
  exact absurd this (by simp)

/-- Conversely, the index of the first occurrence of a token is what
`pyIndex` returns. -/
theorem pyIndex_of_first {charset : List (List Char)} {tok : List Char} {k : Nat}
    (h1 : charset.get? k = some tok) (h2 : ∀ j, j < k → charset.get? j ≠ some tok) :
    pyIndex charset tok = some k := by
  induction charset generalizing k with
  | nil => exact absurd h1 (by simp)
  | cons t ts ih =>
    cases k with
    | zero =>
      rw [List.get?_cons_zero, Option.some.injEq] at h1
      rw [pyIndex, if_pos h1]
    | succ k =>
      have ht : ¬t = tok := by
        have := h2 0 (by omega)
        simpa using this
      rw [pyIndex, if_neg ht]
      rw [List.get?_cons_succ] at h1
      rw [ih h1 (fun j hj => by simpa using h2 (j + 1) (by omega))]
      rfl

/-- Beyond the string's end the chosen one-hot index is the `'PAD'` index 1. -/
theorem oneHotInd_pad {charset : List (List Char)} {s : List Char} {i : Nat}
    (hs : s.get? i = none) : oneHotInd charset s i = 1 := by
  unfold oneHotInd
  rw [hs]

/-- At an in-range position whose character is in the vocabulary, the chosen
one-hot index is that character's first index in the vocabulary. -/
theorem oneHotInd_found {charset : List (List Char)} {s : List Char} {i : Nat} {c : Char}
    {k : Nat} (hs : s.get? i = some c) (hp : pyIndex charset [c] = some k) :
    oneHotInd charset s i = k := by
  unfold oneHotInd
  rw [hs]
  show (match pyIndex charset [c] with | some k => k | none => 0) = k
  rw [hp]

/-- At an in-range position whose character is out of vocabulary, the chosen
one-hot index is the `'NULL'` index 0. -/
theorem oneHotInd_oov {charset : List (List Char)} {s : List Char} {i : Nat} {c : Char}
    (hs : s.get? i = some c) (hp : pyIndex charset [c] = none) :
    oneHotInd charset s i = 0 := by
  unfold oneHotInd
  rw [hs]
  show (match pyIndex charset [c] with | some k => k | none => 0) = 0
  rw [hp]

/-- When the vocabulary has both reserved entries (length at least 2), the
chosen one-hot index is always in range. -/
theorem oneHotInd_lt {charset : List (List Char)} (s : List Char) (i : Nat)
    (h2 : 2 ≤ charset.length) : oneHotInd charset s i < charset.length := by
  cases hs : s.get? i with
  | none => rw [oneHotInd_pad hs]; omega
  | some c =>
    cases hp : pyIndex charset [c] with
    | none => rw [oneHotInd_oov hs hp]; omega
    | some k =>
      rw [oneHotInd_found hs hp]
      exact pyIndex_lt hp

theorem oneHotVec_length (n k : Nat) : (oneHotVec n k).length = n := by
  simp [oneHotVec]

theorem sum_replicate_zero : ∀ n : Nat, (List.replicate n (0 : Nat)).sum = 0 := by
  intro n
  induction n with
  | zero => rfl
  | succ n ih => simp [List.replicate_succ, ih]

theorem oneHotVec_sum {n k : Nat} (h : k < n) : (oneHotVec n k).sum = 1 := by
  induction n generalizing k with
  | zero => omega
  | succ n ih =>
    cases k with
    | zero => simp [oneHotVec, List.replicate_succ, sum_replicate_zero]
    | succ k =>
      have hk : k < n := by omega
      have := ih hk
      simp only [oneHotVec, List.replicate_succ, List.set_cons_succ, List.sum_cons] at *
      omega

theorem oneHotVec_mem {n k x : Nat} (hx : x ∈ oneHotVec n k) : x = 0 ∨ x = 1 := by
  rcases List.mem_or_eq_of_mem_set hx with hx | rfl
  · exact Or.inl (List.eq_of_mem_replicate hx)
  · exact Or.inr rfl

theorem oneHotVec_get_self {n k : Nat} (h : k < n) : (oneHotVec n k).get? k = some 1 := by
  rw [List.get?_eq_getElem?]
  unfold oneHotVec
  rw [List.getElem?_set_self (by simpa using h)]

theorem oneHotVec_get_other {n k j : Nat} (hj : j < n) (hne : j ≠ k) :
    (oneHotVec n k).get? j = some 0 := by
  rw [List.get?_eq_getElem?]
  unfold oneHotVec
  rw [List.getElem?_set_ne (Ne.symm hne)]
  simp [hj]

/-- The shape of a successful column: `oneHotCol?` returns exactly the
one-hot vector at the chosen index, and succeeds exactly when that index is
in range. -/
theorem oneHotCol_eq_some {charset : List (List Char)} {s : List Char} {i : Nat}
    {row : List Nat} (h : oneHotCol? charset s i = some row) :
    oneHotInd charset s i < charset.length ∧
      row = oneHotVec charset.length (oneHotInd charset s i) := by
  unfold oneHotCol? listSet? at h
  split at h
  case isTrue hlt =>
    refine ⟨by simpa using hlt, ?_⟩
    simpa [oneHotVec] using h.symm
  case isFalse => exact absurd h (by simp)

/-- Every row of a successfully encoded string is a one-hot vector over the
vocabulary. -/
theorem one_hot_smiles_row {charset : List (List Char)} {s : List Char} {maxLen : Nat}
    {m : List (List Nat)} (hm : one_hot_smiles? charset s maxLen = some m)
    {row : List Nat} (hrow : row ∈ m) :
    ∃ k, k < charset.length ∧ row = oneHotVec charset.length k := by
  obtain ⟨i, _, hcol⟩ := mapOrFail_mem hm hrow
  obtain ⟨hlt, hrow'⟩ := oneHotCol_eq_some hcol
  exact ⟨_, hlt, hrow'⟩

/-- Every row of a successful batch encoding is a one-hot vector over the
vocabulary. -/
theorem smiles_to_onehots_row {strings charset : List (List Char)} {maxLen : Nat}
    {t : List (List (List Nat))} (ht : smiles_to_onehots strings charset maxLen = some t)
    {m : List (List Nat)} (hm : m ∈ t) {row : List Nat} (hrow : row ∈ m) :
    ∃ k, k < charset.length ∧ row = oneHotVec charset.length k := by
  obtain ⟨s, _, hsm⟩ := mapOrFail_mem ht hm
  exact one_hot_smiles_row hsm hrow

/-! ## The claims -/

/-- **C1.** For every input corpus, `generate_charset` returns a vocabulary
whose element at index 0 is `'NULL'` and at index 1 is `'PAD'`, whose
elements from index 2 on are exactly the distinct characters occurring
anywhere in the corpus in strictly ascending code-point order, with no
duplicate entries, of length `2 + (number of distinct characters)`; in
particular `generate_charset [] = ['NULL', 'PAD']`. -/
theorem generate_charset_spec (corpus : List (List Char)) :
    (∃ chars : List Char,
        generate_charset corpus = NULLtok :: PADtok :: chars.map (fun c => [c]) ∧
        chars.Sorted (· < ·) ∧
        (∀ c : Char, c ∈ chars ↔ ∃ s ∈ corpus, c ∈ s)) ∧
    (generate_charset corpus).Nodup ∧
    (generate_charset corpus).length = 2 + corpus.flatten.toFinset.card ∧
    generate_charset ([] : List (List Char)) = [NULLtok, PADtok] := by
  refine ⟨⟨sortedChars corpus.flatten, rfl, sortedChars_sorted _, ?_⟩, ?_, ?_, rfl⟩
  · intro c
    rw [mem_sortedChars, List.mem_flatten]
  · unfold generate_charset
    rw [List.nodup_cons, List.nodup_cons]
    refine ⟨?_, ?_, ?_⟩
    · intro h
      rcases List.mem_cons.1 h with h | h
      · exact absurd h (by decide)
      · obtain ⟨c, _, hc⟩ := List.mem_map.1 h
        exact single_ne_NULLtok c hc
    · intro h
      obtain ⟨c, _, hc⟩ := List.mem_map.1 h
      exact single_ne_PADtok c hc
    · exact (sortedChars_nodup _).map (fun a b h => by simpa using h)
  · unfold generate_charset
    simp only [List.length_cons, List.length_map, length_sortedChars]
    omega

theorem generate_charset_spec_w :
    (generate_charset [['C', 'C', '1']]).length =
      2 + ([['C', 'C', '1']] : List (List Char)).flatten.toFinset.card :=
  (generate_charset_spec [['C', 'C', '1']]).2.2.1

/-- **C6.** `generate_charset` is deterministic and insensitive to corpus
ordering and duplication: two corpora containing the same set of characters
produce the identical vocabulary, position for position. -/
theorem generate_charset_deterministic (c1 c2 : List (List Char))
    (h : ∀ ch : Char, (∃ s ∈ c1, ch ∈ s) ↔ (∃ s ∈ c2, ch ∈ s)) :
    generate_charset c1 = generate_charset c2 := by
  have hst : sortedChars c1.flatten = sortedChars c2.flatten :=
    sortedChars_eq_of_mem_iff (fun a => by
      simp only [List.mem_flatten]
      exact h a)
  unfold generate_charset
  rw [hst]

theorem generate_charset_deterministic_w :
    generate_charset [['a', 'b']] = generate_charset [['b'], ['b', 'a'], ['a']] :=
  generate_charset_deterministic _ _ (by
    intro ch
    simp only [List.mem_cons, List.not_mem_nil, or_false]
    constructor
    · rintro ⟨s, rfl, hc⟩
      refine ⟨['b', 'a'], Or.inr (Or.inl rfl), ?_⟩
      simp only [List.mem_cons, List.not_mem_nil, or_false] at hc ⊢
      tauto
    · rintro ⟨s, hs, hc⟩
      refine ⟨['a', 'b'], rfl, ?_⟩
      rcases hs with rfl | rfl | rfl <;>
        simp only [List.mem_cons, List.not_mem_nil, or_false] at hc ⊢ <;>
        tauto)

/-- **C2.** For every batch, vocabulary and `max_length`, sample `s` (at
batch slot `j`) and position `i < max_length`, the row written by
`smiles_to_onehots` is the one-hot vector at: the vocabulary position of
`s[i]` (its first index in the vocabulary) when `i` is within the string
and that character occurs in the vocabulary; index 0 (`'NULL'`) when `i`
is within the string but the character is absent from the vocabulary; and
index 1 (`'PAD'`) when `i` is at or beyond the string's length. -/
theorem smiles_to_onehots_index_policy
    (strings charset : List (List Char)) (maxLen : Nat)
    (t : List (List (List Nat))) (j i : Nat) (s : List Char)
    (ht : smiles_to_onehots strings charset maxLen = some t)
    (hs : strings.get? j = some s) (hi : i < maxLen) :
    ∃ row : List Nat, (t.get? j).bind (fun m => m.get? i) = some row ∧
      (∀ c : Char, s.get? i = some c →
        (∀ k : Nat, charset.get? k = some [c] →
          (∀ j', j' < k → charset.get? j' ≠ some [c]) →
          row = oneHotVec charset.length k) ∧
        ([c] ∉ charset → row = oneHotVec charset.length 0)) ∧
      (s.length ≤ i → row = oneHotVec charset.length 1) := by
  have hbatch := mapOrFail_get? ht j
  rw [hs, Option.some_bind] at hbatch
  cases hm : one_hot_smiles? charset s maxLen with
  | none =>
    rw [hm] at hbatch
    have hjlt : j < strings.length := by
      by_contra hj
      rw [List.get?_eq_none.2 (by omega)] at hs
      exact absurd hs (by simp)
    have hlen := mapOrFail_length ht
    have : t.get? j = none := hbatch.symm
    rw [List.get?_eq_none] at this
    omega
  | some m =>
    rw [hm] at hbatch
    have hrow := mapOrFail_get? hm i
    rw [List.get?_eq_getElem?, List.getElem?_range hi, Option.some_bind] at hrow
    cases hcol : oneHotCol? charset s i with
    | none =>
      rw [hcol] at hrow
      have hmlen := mapOrFail_length hm
      rw [List.length_range] at hmlen
      have : m.get? i = none := hrow.symm
      rw [List.get?_eq_none] at this
      omega
    | some row =>
      rw [hcol] at hrow
      obtain ⟨hlt, hrow'⟩ := oneHotCol_eq_some hcol
      refine ⟨row, ?_, ?_, ?_⟩
      · rw [← hbatch, Option.some_bind, ← hrow]
      · intro c hc
        constructor
        · intro k hk1 hk2
          rw [hrow', oneHotInd_found hc (pyIndex_of_first hk1 hk2)]
        · intro hnot
          rw [hrow', oneHotInd_oov hc (pyIndex_eq_none.2 hnot)]
      · intro hlen
        rw [hrow', oneHotInd_pad (List.get?_eq_none.2 hlen)]

theorem smiles_to_onehots_index_policy_w :
    ∃ row : List Nat,
      (([[[0, 0, 1], [1, 0, 0], [0, 1, 0]]] :
          List (List (List Nat))).get? 0).bind (fun m => m.get? 2) = some row ∧
      (∀ c : Char, (['C', 'X'] : List Char).get? 2 = some c →
        (∀ k : Nat, ([NULLtok, PADtok, ['C']] : List (List Char)).get? k = some [c] →
          (∀ j', j' < k →
            ([NULLtok, PADtok, ['C']] : List (List Char)).get? j' ≠ some [c]) →
          row = oneHotVec ([NULLtok, PADtok, ['C']] : List (List Char)).length k) ∧
        ([c] ∉ ([NULLtok, PADtok, ['C']] : List (List Char)) →
          row = oneHotVec ([NULLtok, PADtok, ['C']] : List (List Char)).length 0)) ∧
      ((['C', 'X'] : List Char).length ≤ 2 →
        row = oneHotVec ([NULLtok, PADtok, ['C']] : List (List Char)).length 1) :=
  smiles_to_onehots_index_policy [['C', 'X']] [NULLtok, PADtok, ['C']] 3
    [[[0, 0, 1], [1, 0, 0], [0, 1, 0]]] 0 2 ['C', 'X']
    (by decide) (by decide) (by decide)

/-- **C3.** For every non-empty batch, non-empty vocabulary and
`max_length`, every (sample, position) row of a returned tensor has exactly
one entry equal to 1 along the vocabulary dimension and 0 everywhere else,
so its sum along the vocabulary axis is exactly 1. -/
theorem smiles_to_onehots_row_onehot
    (strings charset : List (List Char)) (maxLen : Nat) (t : List (List (List Nat)))
    (hne : strings ≠ []) (hcs : charset ≠ [])
    (ht : smiles_to_onehots strings charset maxLen = some t) :
    ∀ m ∈ t, ∀ row ∈ m,
      (∃ k, k < charset.length ∧ row.get? k = some 1 ∧
        ∀ k', k' < charset.length → k' ≠ k → row.get? k' = some 0) ∧
      row.sum = 1 := by
  intro m hm row hrow
  obtain ⟨k, hk, rfl⟩ := smiles_to_onehots_row ht hm hrow
  exact ⟨⟨k, hk, oneHotVec_get_self hk,
    fun k' hk' hne' => oneHotVec_get_other hk' hne'⟩, oneHotVec_sum hk⟩

theorem smiles_to_onehots_row_onehot_w :
    (∃ k, k < ([NULLtok, PADtok, ['C']] : List (List Char)).length ∧
      ([0, 1, 0] : List Nat).get? k = some 1 ∧
      ∀ k', k' < ([NULLtok, PADtok, ['C']] : List (List Char)).length → k' ≠ k →
        ([0, 1, 0] : List Nat).get? k' = some 0) ∧
    ([0, 1, 0] : List Nat).sum = 1 :=
  smiles_to_onehots_row_onehot [['C']] [NULLtok, PADtok, ['C']] 2
    [[[0, 0, 1], [0, 1, 0]]] (by decide) (by decide) (by decide)
    [[0, 0, 1], [0, 1, 0]] (by decide) [0, 1, 0] (by decide)

/-- The list collected by the loop of `smiles_to_onehots` has one matrix
per input string, every matrix has `max_length` rows, and every row has
one entry per vocabulary token. -/
theorem smiles_to_onehots_shape_data
    (strings charset : List (List Char)) (maxLen : Nat) (t : List (List (List Nat)))
    (ht : smiles_to_onehots strings charset maxLen = some t) :
    t.length = strings.length ∧
      ∀ m ∈ t, m.length = maxLen ∧ ∀ row ∈ m, row.length = charset.length := by
  refine ⟨mapOrFail_length ht, ?_⟩
  intro m hm
  obtain ⟨s, _, hsm⟩ := mapOrFail_mem ht hm
  refine ⟨?_, ?_⟩
  · have := mapOrFail_length hsm
    simpa using this
  · intro row hrow
    obtain ⟨k, _, rfl⟩ := one_hot_smiles_row hsm hrow
    exact oneHotVec_length _ _

/-- **C4 (counterexample).** The shape contract fails for the empty string
list: `np.array([])` over the empty collected list is a 1-dimensional
array of shape `(0,)`, not a 3-dimensional tensor of shape
`(0, max_length, vocabulary_size)` — here with `max_length = 3` and the
two-token vocabulary, the claimed shape would be `(0, 3, 2)`. -/
theorem smiles_to_onehots_np_empty_batch :
    (smiles_to_onehots_np [] [NULLtok, PADtok] 3).map NpArray3.shape = some [0] ∧
      ([0] : List Nat) ≠
        [([] : List (List Char)).length, 3,
          ([NULLtok, PADtok] : List (List Char)).length] := by
  exact ⟨rfl, by decide⟩

/-- **C4 (amended).** For every non-empty list of input strings, a returned
array has shape (number of input strings, `max_length`, vocabulary size),
regardless of the individual input string lengths; for the empty string
list the returned `np.array([])` is a 1-dimensional array of shape `(0,)`
with no data. -/
theorem smiles_to_onehots_np_shape
    (strings charset : List (List Char)) (maxLen : Nat) (a : NpArray3)
    (ht : smiles_to_onehots_np strings charset maxLen = some a) :
    (strings ≠ [] →
      a.shape = [strings.length, maxLen, charset.length] ∧
      a.data.length = strings.length ∧
      ∀ m ∈ a.data, m.length = maxLen ∧ ∀ row ∈ m, row.length = charset.length) ∧
    (strings = [] → a.shape = [0] ∧ a.data = []) := by
  unfold smiles_to_onehots_np at ht
  cases hres : smiles_to_onehots strings charset maxLen with
  | none =>
    rw [hres] at ht
    exact absurd ht (by simp)
  | some one_hots =>
    rw [hres, Option.map_some', Option.some.injEq] at ht
    have hdata := smiles_to_onehots_shape_data strings charset maxLen one_hots hres
    subst ht
    cases one_hots with
    | nil =>
      refine ⟨?_, fun _ => ⟨rfl, rfl⟩⟩
      intro hne
      exact absurd (List.length_eq_zero.1 hdata.1.symm) hne
    | cons m ms =>
      refine ⟨fun _ => ⟨?_, hdata.1, hdata.2⟩, fun he => ?_⟩
      · show [(m :: ms).length, maxLen, charset.length] =
          [strings.length, maxLen, charset.length]
        rw [hdata.1]
      · rw [he] at hdata
        exact absurd hdata.1 (by simp)

theorem smiles_to_onehots_np_shape_w :
    (⟨[2, 1, 3], [[[0, 0, 1]], [[1, 0, 0]]]⟩ : NpArray3).shape =
      [([['C'], ['X']] : List (List Char)).length, 1,
        ([NULLtok, PADtok, ['C']] : List (List Char)).length] :=
  ((smiles_to_onehots_np_shape [['C'], ['X']] [NULLtok, PADtok, ['C']] 1
    ⟨[2, 1, 3], [[[0, 0, 1]], [[1, 0, 0]]]⟩ (by decide)).1 (by decide)).1

/-- **C5 (counterexample).** The claim that `smiles_to_onehots` completes
without a runtime error on every input is false: with an empty vocabulary,
one input string and `max_length = 1`, the indexed write
`one_hot_col[ind] = 1` is out of range and the call raises `IndexError`
(the embedding returns `none`). -/
theorem smiles_to_onehots_empty_vocab_raises :
    smiles_to_onehots [['a']] [] 1 = none := by decide

/-- **C5 (amended).** `smiles_to_onehots` completes without a runtime error
whenever the vocabulary has at least its two reserved entries
(`charset.length ≥ 2`); independently, a zero `max_length` and an empty
string list are safe for every vocabulary.  The unconditional no-error
claim is false: with the empty vocabulary, the one-string batch `['a']`
and `max_length = 1` the indexed write `one_hot_col[ind] = 1` is out of
range and the call raises `IndexError`, as the counterexample above
shows. -/
theorem smiles_to_onehots_no_error
    (strings charset : List (List Char)) (maxLen : Nat) :
    (2 ≤ charset.length → (smiles_to_onehots strings charset maxLen).isSome) ∧
    (smiles_to_onehots strings charset 0).isSome ∧
    smiles_to_onehots [] charset maxLen = some [] := by
  refine ⟨?_, ?_, rfl⟩
  · intro h2
    apply mapOrFail_isSome
    intro s _
    apply mapOrFail_isSome
    intro i _
    have hlt : oneHotInd charset s i < (List.replicate charset.length (0 : Nat)).length := by
      simpa using oneHotInd_lt s i h2
    unfold oneHotCol? listSet?
    rw [if_pos hlt]
    rfl
  · apply mapOrFail_isSome
    intro s _
    unfold one_hot_smiles?
    rw [List.range_zero]
    rfl

theorem smiles_to_onehots_no_error_w :
    (smiles_to_onehots [['C']] [NULLtok, PADtok] 2).isSome :=
  (smiles_to_onehots_no_error [['C']] [NULLtok, PADtok] 2).1 (by decide)

/-- **C7.** Strings longer than `max_length` are silently truncated: the
encoding of a string equals the encoding of its length-`max_length`
prefix, with no error. -/
theorem smiles_to_onehots_truncates
    (charset : List (List Char)) (s : List Char) (maxLen : Nat)
    (h : maxLen < s.length) :
    smiles_to_onehots [s] charset maxLen =
      smiles_to_onehots [s.take maxLen] charset maxLen := by
  have hone : one_hot_smiles? charset s maxLen =
      one_hot_smiles? charset (s.take maxLen) maxLen := by
    unfold one_hot_smiles?
    apply mapOrFail_congr
    intro i hi
    have hi' : i < maxLen := List.mem_range.1 hi
    have hind : oneHotInd charset s i = oneHotInd charset (s.take maxLen) i := by
      unfold oneHotInd
      rw [List.get?_take hi']
    unfold oneHotCol?
    rw [hind]
  unfold smiles_to_onehots
  simp only [mapOrFail, hone]

theorem smiles_to_onehots_truncates_w :
    smiles_to_onehots [['C', 'C', '1']] [NULLtok, PADtok, ['C']] 2 =
      smiles_to_onehots [(['C', 'C', '1'] : List Char).take 2]
        [NULLtok, PADtok, ['C']] 2 :=
  smiles_to_onehots_truncates [NULLtok, PADtok, ['C']] ['C', 'C', '1'] 2 (by decide)

/-- **C8 (counterexample).** The returned tensor does not have a
small-integer element type: the source calls `np.zeros` without a `dtype`
argument, so the element type is numpy's default `float64`. -/
theorem smiles_to_onehots_dtype_not_small_int :
    smiles_to_onehots_dtype.isSmallInteger = false := rfl

/-- **C8 (amended).** The tensor returned by `smiles_to_onehots` has
element type `float64` (numpy's default, since `np.zeros` is called
without a `dtype`), and every entry of the tensor is exactly 0 or 1. -/
theorem smiles_to_onehots_entries_zero_or_one
    (strings charset : List (List Char)) (maxLen : Nat) (t : List (List (List Nat)))
    (ht : smiles_to_onehots strings charset maxLen = some t) :
    smiles_to_onehots_dtype = NpDtype.float64 ∧
      ∀ m ∈ t, ∀ row ∈ m, ∀ x ∈ row, x = 0 ∨ x = 1 := by
  refine ⟨rfl, ?_⟩
  intro m hm row hrow x hx
  obtain ⟨k, _, rfl⟩ := smiles_to_onehots_row ht hm hrow
  exact oneHotVec_mem hx

theorem smiles_to_onehots_entries_zero_or_one_w :
    smiles_to_onehots_dtype = NpDtype.float64 ∧
      ∀ m ∈ ([[[0, 0, 1], [0, 1, 0]]] : List (List (List Nat))),
        ∀ row ∈ m, ∀ x ∈ row, x = 0 ∨ x = 1 :=
  smiles_to_onehots_entries_zero_or_one [['C']] [NULLtok, PADtok, ['C']] 2
    [[[0, 0, 1], [0, 1, 0]]] (by decide)

/-- **C9.** Samples are encoded independently: whenever the batch call
succeeds, slice `j` of its tensor equals slice 0 of the tensor obtained by
encoding the one-element batch containing only string `j`. -/
theorem smiles_to_onehots_independent
    (strings charset : List (List Char)) (maxLen : Nat)
    (t : List (List (List Nat))) (j : Nat) (s : List Char)
    (ht : smiles_to_onehots strings charset maxLen = some t)
    (hj : strings.get? j = some s) :
    ∃ m, t.get? j = some m ∧ smiles_to_onehots [s] charset maxLen = some [m] := by
  have h := mapOrFail_get? ht j
  rw [hj, Option.some_bind] at h
  cases hm : one_hot_smiles? charset s maxLen with
  | none =>
    rw [hm] at h
    have hjlt : j < strings.length := by
      by_contra hc
      rw [List.get?_eq_none.2 (by omega)] at hj
      exact absurd hj (by simp)
    have hlen := mapOrFail_length ht
    have ht' : t.get? j = none := h.symm
    rw [List.get?_eq_none] at ht'
    omega
  | some m =>
    rw [hm] at h
    refine ⟨m, h.symm, ?_⟩
    show mapOrFail _ [s] = some [m]
    simp only [mapOrFail, hm]

theorem smiles_to_onehots_independent_w :
    ∃ m, ([[[0, 0, 1]], [[1, 0, 0]]] : List (List (List Nat))).get? 1 = some m ∧
      smiles_to_onehots [['X']] [NULLtok, PADtok, ['C']] 1 = some [m] :=
  smiles_to_onehots_independent [['C'], ['X']] [NULLtok, PADtok, ['C']] 1
    [[[0, 0, 1]], [[1, 0, 0]]] 1 ['X'] (by decide) (by decide)

/-- **C10.** In a vocabulary produced by `generate_charset` every
single-character token sits at an index at least 2 (the reserved entries
`'NULL'` and `'PAD'` are multi-character tokens no single character can
equal), so an in-range position whose character is found in the vocabulary
is never assigned one-hot index 0 or 1: index 0 arises only from an
out-of-vocabulary character and index 1 only from padding. -/
theorem generate_charset_reserved (corpus : List (List Char)) :
    (∀ c : Char, ∀ k : Nat,
      pyIndex (generate_charset corpus) [c] = some k → 2 ≤ k) ∧
    (∀ s : List Char, ∀ i : Nat, ∀ c : Char,
      s.get? i = some c → [c] ∈ generate_charset corpus →
        2 ≤ oneHotInd (generate_charset corpus) s i) ∧
    (∀ s : List Char, ∀ i : Nat, oneHotInd (generate_charset corpus) s i = 0 →
      ∃ c, s.get? i = some c ∧ [c] ∉ generate_charset corpus) ∧
    (∀ s : List Char, ∀ i : Nat, oneHotInd (generate_charset corpus) s i = 1 →
      s.length ≤ i) := by
  have hidx : ∀ c : Char, ∀ k : Nat,
      pyIndex (generate_charset corpus) [c] = some k → 2 ≤ k := by
    intro c k h
    have hget := (pyIndex_some_spec h).1
    match k with
    | 0 =>
      rw [show (generate_charset corpus).get? 0 = some NULLtok from rfl,
        Option.some.injEq] at hget
      exact absurd hget.symm (single_ne_NULLtok c)
    | 1 =>
      rw [show (generate_charset corpus).get? 1 = some PADtok from rfl,
        Option.some.injEq] at hget
      exact absurd hget.symm (single_ne_PADtok c)
    | (k + 2) => omega
  refine ⟨hidx, ?_, ?_, ?_⟩
  · intro s i c hs hmem
    cases hp : pyIndex (generate_charset corpus) [c] with
    | none => exact absurd (pyIndex_eq_none.1 hp) (by simpa using hmem)
    | some k =>
      rw [oneHotInd_found hs hp]
      exact hidx c k hp
  · intro s i h0
    cases hs : s.get? i with
    | none => rw [oneHotInd_pad hs] at h0; omega
    | some c =>
      cases hp : pyIndex (generate_charset corpus) [c] with
      | none => exact ⟨c, rfl, pyIndex_eq_none.1 hp⟩
      | some k =>
        rw [oneHotInd_found hs hp] at h0
        have := hidx c k hp
        omega
  · intro s i h1
    cases hs : s.get? i with
    | none => exact List.get?_eq_none.1 hs
    | some c =>
      cases hp : pyIndex (generate_charset corpus) [c] with
      | none => rw [oneHotInd_oov hs hp] at h1; omega
      | some k =>
        rw [oneHotInd_found hs hp] at h1
        have := hidx c k hp
        omega

theorem generate_charset_reserved_w :
    2 ≤ oneHotInd (generate_charset [['C']]) ['X', 'C'] 1 :=
  (generate_charset_reserved [['C']]).2.1 ['X', 'C'] 1 'C' (by decide) (by decide)

end MoleculePred
